import Mathlib

/-!
Verification of the dictionary converter and search engine.

The Go sources are shallowly embedded: Go strings are `List Char` (Go's
`range` over a string iterates runes), Go maps whose insertion/lookup
behaviour matters are association lists in insertion order, and the SQLite
store consumed by the search engine is modelled at its interface (a list of
keys with exact / leading-match / containment filters and LIMIT as `take`,
per the collaborator contract: "indexed exact/prefix/substring text queries").
-/

namespace Dict

/-- Go strings, iterated rune by rune. -/
abbrev Str := List Char

/-! ## parseBNC (converter.go 21-31) and its helpers -/

/-- The code points accepted by Go's `unicode.IsSpace`
(used by `strings.TrimSpace`). -/
def goSpaceCodes : List Nat :=
  [0x9, 0xA, 0xB, 0xC, 0xD, 0x20, 0x85, 0xA0, 0x1680,
   0x2000, 0x2001, 0x2002, 0x2003, 0x2004, 0x2005, 0x2006, 0x2007,
   0x2008, 0x2009, 0x200A, 0x2028, 0x2029, 0x202F, 0x205F, 0x3000]

def isGoSpace (c : Char) : Bool := goSpaceCodes.contains c.toNat

/-- Go `strings.TrimSpace`: drop leading and trailing white space. -/
def trimSpace (s : Str) : Str :=
  ((s.dropWhile isGoSpace).reverse.dropWhile isGoSpace).reverse

def isDigitChar (c : Char) : Bool := decide ('0' ≤ c) && decide (c ≤ '9')

def digitsToNat (ds : Str) : Nat :=
  ds.foldl (fun a c => a * 10 + (c.toNat - 48)) 0

/-- Go `strconv.Atoi` on a 64-bit platform: optional sign, decimal digits,
`none` when empty, when any character is not a digit, or when the value
does not fit in a signed 64-bit integer (`ErrRange`). -/
def atoi (s : Str) : Option Int :=
  match s with
  | [] => none
  | c :: rest =>
    let neg : Bool := c == '-'
    let ds : Str := if c = '-' ∨ c = '+' then rest else c :: rest
    if ds = [] then none
    else if ds.all isDigitChar then
      let n : Nat := digitsToNat ds
      if neg then (if n ≤ 9223372036854775808 then some (-(n : Int)) else none)
      else (if n ≤ 9223372036854775807 then some ((n : Int)) else none)
    else none

/-- The `1 << 30` sentinel used by `parseBNC` for unranked records. -/
def bncSentinel : Int := 1073741824

/-- converter.go `parseBNC`: trim, then empty / unparsable / zero map to the
sentinel, anything else to the parsed value. -/
def parseBNC (bnc : Str) : Int :=
  let t := trimSpace bnc
  if t = [] then bncSentinel
  else
    match atoi t with
    | none => bncSentinel
    | some n => if n = 0 then bncSentinel else n

/-! ## The gloss extractor (converter.go 226-263) -/

/-- The rune classes of the splitting regex `[,，、;；\s]+`; `\s` in RE2 is
`[\t\n\f\r ]`. -/
def isSeparator (c : Char) : Bool :=
  c == ',' || c == '，' || c == '、' || c == ';' || c == '；' ||
  c == '\t' || c == '\n' || c == '\x0c' || c == '\r' || c == ' '

/-- Drop everything up to and including the first occurrence of `d`. -/
def skipPast (d : Char) (s : Str) : Str :=
  (s.dropWhile (fun c => !(c == d))).tail

/-- Worker for `removeBrackets`; the fuel argument only funds recursion after
a skip and is in excess whenever it is at least the string length. -/
def removeBracketsFuel : Nat → Str → Str
  | _, [] => []
  | 0, s => s
  | fuel + 1, c :: rest =>
    if c == '[' && rest.contains ']' then removeBracketsFuel fuel (skipPast ']' rest)
    else if c == '(' && rest.contains ')' then removeBracketsFuel fuel (skipPast ')' rest)
    else c :: removeBracketsFuel fuel rest

/-- converter.go 228-229: `ReplaceAllString` with `\[([^\]]*)\]|\(([^)]*)\)`.
The regex removes, scanning left to right, every span from an opening
bracket to the first closing bracket of the same kind; an opener with no
later closer of its kind matches nothing and stays. -/
def removeBrackets (s : Str) : Str := removeBracketsFuel s.length s

/-- converter.go 232-233: `regexp.Split` with `[,，、;；\s]+` and n = -1.
A maximal run of separator runes is one split point; fragments at the very
start or end may be empty. -/
def splitRuns : Str → List Str
  | [] => [[]]
  | c :: cs =>
    if isSeparator c then
      match cs with
      | [] => [] :: [[]]
      | d :: _ =>
        if isSeparator d then splitRuns cs else [] :: splitRuns cs
    else
      match splitRuns cs with
      | [] => [[c]]
      | f :: fs => (c :: f) :: fs

/-- The rune ranges of Go's `unicode.Han` table. -/
def hanRanges : List (Nat × Nat) :=
  [(0x2E80, 0x2E99), (0x2E9B, 0x2EF3), (0x2F00, 0x2FD5), (0x3005, 0x3005),
   (0x3007, 0x3007), (0x3021, 0x3029), (0x3038, 0x303B), (0x3400, 0x4DBF),
   (0x4E00, 0x9FFF), (0xF900, 0xFA6D), (0xFA70, 0xFAD9),
   (0x16FE2, 0x16FE3), (0x16FF0, 0x16FF1), (0x20000, 0x2A6DF),
   (0x2A700, 0x2B739), (0x2B740, 0x2B81D), (0x2B820, 0x2CEA1),
   (0x2CEB0, 0x2EBE0), (0x2EBF0, 0x2EE5D), (0x2F800, 0x2FA1D),
   (0x30000, 0x3134A), (0x31350, 0x323AF)]

/-- Go `unicode.Is(unicode.Han, r)`. -/
def isHan (c : Char) : Bool :=
  hanRanges.any (fun p => decide (p.1 ≤ c.toNat) && decide (c.toNat ≤ p.2))

/-- converter.go `isAllChinese`: non-empty and every rune is Han, `·` or `—`. -/
def isAllChinese (text : Str) : Bool :=
  if text = [] then false
  else text.all (fun r => isHan r || r == '·' || r == '—')

/-- converter.go `extractChineseWords`: strip bracket spans, split on the
separator runs, trim each part, keep the non-empty all-Chinese parts. -/
def extractChineseWords (translation : Str) : List Str :=
  let cleanTranslation := removeBrackets translation
  let parts := splitRuns cleanTranslation
  parts.foldl
    (fun acc part =>
      let part := trimSpace part
      if part = [] then acc
      else if isAllChinese part then acc ++ [part] else acc)
    []

/-- The gloss extractor as the specification words it: remove every
square-bracket- and round-bracket-delimited annotation span, split the
remainder on comma variants, semicolon variants and runs of white space,
trim each fragment, and keep exactly the fragments that are non-empty and
consist only of Han ideographs, the middle dot `·` and the em dash `—`. -/
def specGlossExtract (translation : Str) : List Str :=
  ((splitRuns (removeBrackets translation)).map trimSpace).filter
    (fun p => decide (p ≠ [] ∧ ∀ c ∈ p, isHan c = true ∨ c = '·' ∨ c = '—'))

/-! ## Ingestion (converter.go 100-111 and 328-339)

A raw CSV row is `Option (List Str)`: `none` is a row the CSV reader failed
to parse (the loop does `continue` on it), `some rec` a parsed field list. -/

/-- CreateEnglishDB 100-111: keep every parsed row with at least 13 fields. -/
def englishIngest (rows : List (Option (List Str))) : List (List Str) :=
  rows.foldl
    (fun acc r =>
      match r with
      | none => acc
      | some rec => if 13 ≤ rec.length then acc ++ [rec] else acc)
    []

/-- CreateChineseDB 328-339: keep every parsed row with at least 13 fields
and a non-empty translation field (`record[3] != ""`). -/
def chineseIngest (rows : List (Option (List Str))) : List (List Str) :=
  rows.foldl
    (fun acc r =>
      match r with
      | none => acc
      | some rec =>
        if 13 ≤ rec.length ∧ rec.getD 3 [] ≠ [] then acc ++ [rec] else acc)
    []

/-- The five columns a materialized row is inserted with
(word, phonetic, definition, translation, bnc). -/
def toForwardEntry (rec : List Str) : Str × Str × Str × Str × Str :=
  (rec.getD 0 [], rec.getD 1 [], rec.getD 2 [], rec.getD 3 [], rec.getD 8 [])

/-- CreateEnglishDB 160-172: the rows handed to the insert statement, in
corpus order (batching only partitions this list, and the single write lock
serializes each batch's transaction; per-row insert failures are skipped at
store level and not modelled). -/
def englishInserts (rows : List (Option (List Str))) : List (Str × Str × Str × Str × Str) :=
  (englishIngest rows).foldl (fun acc rec => acc ++ [toForwardEntry rec]) []

/-! ## The reverse index build (converter.go 342-437)

`chineseMap` is a Go `map[string]map[string]string`; only its first-write-wins
update and its key set matter to the claims, so it is embedded as an
association list in insertion order. -/

/-- gloss → (word → translation), insertion-ordered. -/
abbrev EngMap := List (Str × Str)
abbrev ChineseMap := List (Str × EngMap)

/-- Keyed lookup in an insertion-ordered association list
(a Go map read `m[k]`). -/
def assocFind {α : Type} : List (Str × α) → Str → Option α
  | [], _ => none
  | (k, v) :: rest, key => if k = key then some v else assocFind rest key

/-- converter.go 355-363: record one observation of
(gloss `g`, word `w`, translation `t`); the translation is stored only when
the (gloss, word) pair is not yet present. -/
def insertObs (m : ChineseMap) (g w t : Str) : ChineseMap :=
  match m with
  | [] => [(g, [(w, t)])]
  | (g', em) :: rest =>
    if g' = g then
      (g', if (assocFind em w).isSome then em else em ++ [(w, t)]) :: rest
    else
      (g', em) :: insertObs rest g w t

/-- converter.go 347-364: fold every record's extracted glosses into the map. -/
def buildChineseMap (records : List (List Str)) : ChineseMap :=
  records.foldl
    (fun m r =>
      (extractChineseWords (r.getD 3 [])).foldl
        (fun m' chWord => insertObs m' chWord (r.getD 0 []) (r.getD 3 []))
        m)
    []

/-- All (gloss, word, translation) observations of one record, in the order
the inner loop of converter.go 355-363 visits them. -/
def obsOfRecord (r : List Str) : List (Str × Str × Str) :=
  (extractChineseWords (r.getD 3 [])).map (fun g => (g, r.getD 0 [], r.getD 3 []))

/-- All observations of the corpus in scan order. -/
def observations (records : List (List Str)) : List (Str × Str × Str) :=
  records.flatMap obsOfRecord

/-- Reading `chineseMap[chWord][englishWord]`: a missing gloss behaves as an
empty inner map. -/
def lookupPair (m : ChineseMap) (g w : Str) : Option Str :=
  (assocFind m g).bind (fun em => assocFind em w)

/-- converter.go 368-374: word → BNC rank, first record of a word wins. -/
def buildBncMap (records : List (List Str)) : List (Str × Int) :=
  records.foldl
    (fun m r =>
      match assocFind m (r.getD 0 []) with
      | some _ => m
      | none => m ++ [(r.getD 0 [], parseBNC (r.getD 8 []))])
    []

/-- converter.go 407-411: rank of a word, `1 << 30` when absent. -/
def lookupBnc (m : List (Str × Int)) (w : Str) : Int :=
  match assocFind m w with
  | some b => b
  | none => bncSentinel

/-- The `engInfo` struct of converter.go 399-403. -/
structure EngInfo where
  word : Str
  defn : Str
  bnc : Int
  deriving DecidableEq

/-- converter.go 404-417: the candidate list of one gloss, in the stored
(first-observation) order, each word joined with its rank. -/
def glossEngList (records : List (List Str)) (g : Str) : List EngInfo :=
  match assocFind (buildChineseMap records) g with
  | none => []
  | some em => em.map (fun p => ⟨p.1, p.2, lookupBnc (buildBncMap records) p.1⟩)

def orderedInsertBnc (x : EngInfo) : List EngInfo → List EngInfo
  | [] => [x]
  | y :: ys => if x.bnc ≤ y.bnc then x :: y :: ys else y :: orderedInsertBnc x ys

/-- converter.go 420-422: `sort.Slice` by ascending `bnc`. Go's `sort.Slice`
promises exactly a permutation ordered by the less function (and really runs
an insertion sort at these sizes); it is embedded as an insertion sort. -/
def sortByBnc : List EngInfo → List EngInfo
  | [] => []
  | x :: xs => orderedInsertBnc x (sortByBnc xs)

def glossSorted (records : List (List Str)) (g : Str) : List EngInfo :=
  sortByBnc (glossEngList records g)

/-- The ranks of the serialized segments, in serialization order. -/
def glossRanks (records : List (List Str)) (g : Str) : List Int :=
  (glossSorted records g).map EngInfo.bnc

/-- converter.go 425-429: the `word（translation）` segments, in order. -/
def glossSegments (records : List (List Str)) (g : Str) : List Str :=
  (glossSorted records g).map (fun i => i.word ++ '（' :: (i.defn ++ ['）']))

/-- converter.go 432: the serialized `english_words` column. -/
def englishWordsStr (records : List (List Str)) (g : Str) : Str :=
  match glossSegments records g with
  | [] => []
  | s :: ss => ss.foldl (fun acc seg => acc ++ '\n' :: seg) s

/-! ## The search engine (README.md 835-957)

The store is modelled at its query interface: the indexed column is a list
of keys, a `WHERE` clause is a filter over it, `LIMIT n` is `take n`, and
`DISTINCT` keeps the first occurrence of each key. `LIKE 'q%'` and
`LIKE '%q%'` are the leading-match and containment tests of a query without
metacharacters. -/

/-- `q` is a leading piece of `s` (`s LIKE q || '%'`). -/
def strStartsWith : Str → Str → Bool
  | _, [] => true
  | [], _ :: _ => false
  | c :: s, d :: q => (d == c) && strStartsWith s q

/-- `q` occurs contiguously inside `s` (`s LIKE '%' || q || '%'`). -/
def strContainsSub : Str → Str → Bool
  | [], q => strStartsWith [] q
  | c :: t, q => strStartsWith (c :: t) q || strContainsSub t q

/-- The per-tier accumulation of README.md 844-850: append each fetched row
that the `seen` set does not already hold. -/
def addRows (rows : List Str) (acc : List Str) : List Str :=
  rows.foldl (fun a w => if w ∈ a then a else a ++ [w]) acc

/-- `SELECT DISTINCT`: first occurrence of every key, in store order. -/
def sqlDistinct (l : List Str) : List Str :=
  l.foldl (fun a w => if w ∈ a then a else a ++ [w]) []

def searchLimit : Nat := 100

/-- README.md `searchEnglish`: exact tier, then leading-match tier, then
containment tier, each deduplicated against everything collected so far,
with early return once the limit is reached. -/
def searchEnglish (db : List Str) (keyword : Str) : List Str :=
  let r1 := addRows ((db.filter (fun w => decide (w = keyword))).take searchLimit) []
  if searchLimit ≤ r1.length then r1
  else
    let r2 := addRows
      ((db.filter (fun w => strStartsWith w keyword && !(decide (w = keyword)))).take
        (searchLimit - r1.length)) r1
    if searchLimit ≤ r2.length then r2
    else
      addRows
        ((db.filter (fun w => strContainsSub w keyword && !(strStartsWith w keyword))).take
          (searchLimit - r2.length)) r2

/-- README.md `searchChinese`: the same three tiers over the gloss column,
each with `SELECT DISTINCT`. -/
def searchChinese (db : List Str) (keyword : Str) : List Str :=
  let r1 := addRows ((sqlDistinct (db.filter (fun w => decide (w = keyword)))).take searchLimit) []
  if searchLimit ≤ r1.length then r1
  else
    let r2 := addRows
      ((sqlDistinct (db.filter (fun w => strStartsWith w keyword && !(decide (w = keyword))))).take
        (searchLimit - r1.length)) r1
    if searchLimit ≤ r2.length then r2
    else
      addRows
        ((sqlDistinct (db.filter (fun w => strContainsSub w keyword && !(strStartsWith w keyword)))).take
          (searchLimit - r2.length)) r2

/-- A result set decomposed into an exact segment, a leading-match-only
segment and a containment-only segment, in that order. -/
def TierOrdered (keyword : Str) (res : List Str) : Prop :=
  ∃ A B C, res = A ++ B ++ C ∧
    (∀ x ∈ A, x = keyword) ∧
    (∀ x ∈ B, strStartsWith x keyword = true ∧ x ≠ keyword) ∧
    (∀ x ∈ C, strContainsSub x keyword = true ∧ strStartsWith x keyword = false)

/-- The shared tier skeleton of both search functions: the first tier's rows,
then two further tiers each told the remaining budget, with the early
returns at the limit. `searchEnglish` and `searchChinese` are definitionally
instances of it. -/
def threeTiers (l1 : List Str) (l2 l3 : Nat → List Str) : List Str :=
  let r1 := addRows l1 []
  if searchLimit ≤ r1.length then r1
  else
    let r2 := addRows (l2 (searchLimit - r1.length)) r1
    if searchLimit ≤ r2.length then r2
    else addRows (l3 (searchLimit - r2.length)) r2

/-! ## The recency cache (README.md 364-366, 773-792) -/

def maxHistorySize : Nat := 20

/-- README.md 778-783: scan, splice out the first occurrence, `break`. -/
def eraseFirst (word : String) : List String → List String
  | [] => []
  | x :: xs => if x = word then xs else x :: eraseFirst word xs

/-- README.md `addToHistory`: remove the key if present, prepend it,
truncate to `maxHistorySize`. -/
def addToHistory (history : List String) (word : String) : List String :=
  let h := eraseFirst word history
  let h := word :: h
  if maxHistorySize < h.length then h.take maxHistorySize else h

/-! ## Concrete inputs used by witnesses and counterexamples -/

/-- A 13-field CSV row with the given word (field 0), translation (field 3)
and raw frequency (field 8). -/
def mkRow (w t b : String) : List Str :=
  [w.toList, [], [], t.toList, [], [], [], [], b.toList, [], [], [], []]

/-- Three words sharing the gloss `好`, two of them with the same rank. -/
def demoRecordsTie : List (List Str) :=
  [mkRow "a" "好" "5", mkRow "b" "好" "5", mkRow "c" "好" "7"]

/-- Two words sharing the gloss `好` with distinct ranks. -/
def demoRecordsOrd : List (List Str) :=
  [mkRow "a" "好" "2", mkRow "b" "好" "9"]

/-- One record producing the gloss `好`. -/
def demoRecordsHan : List (List Str) :=
  [mkRow "x" "好" "3"]

/-- First-defined-wins choice between two optional values. -/
def optFirst {α : Type} : Option α → Option α → Option α
  | some x, _ => some x
  | none, b => b

/-! # Theorems -/

/-! ## Claims C4 and C9: the frequency parser -/

/-- Claim C4, amended: an empty, unparsable or zero `frequencyRaw` always
yields the single sentinel `bncSentinel`, never an error, and such a record
sorts after every record whose valid positive rank is below the sentinel.
(As stated the claim is false: a parsable rank can exceed `1 << 30`, see the
counterexample.) -/
theorem spec_C4 : ∀ s : Str,
    (trimSpace s = [] ∨ atoi (trimSpace s) = none ∨ atoi (trimSpace s) = some 0) →
    parseBNC s = bncSentinel ∧
      ∀ t : Str, 0 < parseBNC t → parseBNC t < bncSentinel → parseBNC t < parseBNC s := by
  intro s hs
  have hmain : parseBNC s = bncSentinel := by
    unfold parseBNC
    by_cases ht : trimSpace s = []
    · simp [ht]
    · rcases hs with h | h | h
      · exact absurd h ht
      · simp [ht, h]
      · simp [ht, h]
  refine ⟨hmain, ?_⟩
  intro t _ hlt
  rw [hmain]
  exact hlt

/-- Witness for C4 at concrete inputs. -/
theorem spec_C4_witness :
    parseBNC (" ".toList) = bncSentinel ∧
      parseBNC ("7".toList) < parseBNC (" ".toList) := by
  have h := spec_C4 (" ".toList) (by decide)
  exact ⟨h.1, h.2 ("7".toList) (by decide) (by decide)⟩

/-- Claim C4 as frozen is false: `"1073741825"` parses to a valid positive
rank that exceeds the sentinel, so an unranked record (empty `frequencyRaw`)
does not sort after that record with a valid positive rank. -/
theorem spec_C4_counterexample :
    parseBNC ("".toList) = bncSentinel ∧
      0 < parseBNC ("1073741825".toList) ∧
      atoi (trimSpace ("1073741825".toList)) = some (parseBNC ("1073741825".toList)) ∧
      ¬ parseBNC ("1073741825".toList) < parseBNC ("".toList) := by
  decide

/-- Claim C9: a trimmed input parsing to a negative integer `n` is returned
as is, so it ranks strictly before the sentinel and before every record with
a positive rank. -/
theorem spec_C9 : ∀ (s : Str) (n : Int),
    atoi (trimSpace s) = some n → n < 0 →
    parseBNC s = n ∧ parseBNC s < bncSentinel ∧
      ∀ t : Str, 0 < parseBNC t → parseBNC s < parseBNC t := by
  intro s n h hn
  have ht : trimSpace s ≠ [] := by
    intro he
    rw [he] at h
    simp [atoi] at h
  have hmain : parseBNC s = n := by
    unfold parseBNC
    rw [if_neg ht, h]
    exact if_neg (by omega)
  refine ⟨hmain, ?_, ?_⟩
  · rw [hmain]
    unfold bncSentinel
    omega
  · intro t h0
    rw [hmain]
    omega

/-- Witness for C9 at concrete inputs. -/
theorem spec_C9_witness :
    parseBNC ("-5".toList) = -5 ∧ parseBNC ("-5".toList) < bncSentinel ∧
      parseBNC ("-5".toList) < parseBNC ("3".toList) := by
  have h := spec_C9 ("-5".toList) (-5) (by decide) (by decide)
  exact ⟨h.1, h.2.1, h.2.2 ("3".toList) (by decide)⟩

/-! ## Claim C5: the gloss extractor matches its specification -/

theorem isAllChinese_iff (p : Str) :
    isAllChinese p = true ↔ (p ≠ [] ∧ ∀ c ∈ p, isHan c = true ∨ c = '·' ∨ c = '—') := by
  unfold isAllChinese
  by_cases hp : p = [] <;> simp [hp, List.all_eq_true, or_assoc]

theorem extract_foldl (parts : List Str) (acc : List Str) :
    parts.foldl
      (fun acc part =>
        let part := trimSpace part
        if part = [] then acc
        else if isAllChinese part then acc ++ [part] else acc) acc
    = acc ++ (parts.map trimSpace).filter
        (fun p => decide (p ≠ [] ∧ ∀ c ∈ p, isHan c = true ∨ c = '·' ∨ c = '—')) := by
  induction parts generalizing acc with
  | nil => simp
  | cons part rest ih =>
    rw [List.foldl_cons, List.map_cons]
    have hstep : (let q := trimSpace part
          if q = [] then acc
          else if isAllChinese q then acc ++ [q] else acc)
        = if isAllChinese (trimSpace part) then acc ++ [trimSpace part] else acc := by
      by_cases h0 : trimSpace part = []
      · simp [h0, isAllChinese]
      · simp [h0]
    rw [hstep]
    by_cases hc : isAllChinese (trimSpace part) = true
    · rw [if_pos hc, ih (acc ++ [trimSpace part]), List.filter_cons,
        if_pos (decide_eq_true ((isAllChinese_iff _).mp hc))]
      simp
    · have hnot : ¬ (trimSpace part ≠ [] ∧
          ∀ c ∈ trimSpace part, isHan c = true ∨ c = '·' ∨ c = '—') := by
        intro hcontra
        exact hc ((isAllChinese_iff _).mpr hcontra)
      rw [if_neg hc, ih acc, List.filter_cons, if_neg (by simp [hnot])]

/-- Claim C5: on every translation string the extractor of converter.go
computes exactly the specification's pipeline: strip bracket-delimited
annotation spans, split on comma variants, semicolon variants and runs of
white space, trim each fragment, keep exactly the non-empty fragments made
only of Han ideographs, `·` and `—`, duplicates included. -/
theorem spec_C5 : ∀ s : Str, extractChineseWords s = specGlossExtract s := by
  intro s
  unfold extractChineseWords specGlossExtract
  exact (extract_foldl _ []).trans (by simp)

/-! ## Claim C6: the reverse index is first-write-wins per (gloss, word) -/

theorem optFirst_none {α : Type} (a : Option α) : optFirst a none = a := by
  cases a <;> rfl

theorem optFirst_assoc {α : Type} (a b c : Option α) :
    optFirst (optFirst a b) c = optFirst a (optFirst b c) := by
  cases a <;> rfl

theorem assocFind_append {α : Type} (m : List (Str × α)) (k' : Str) (v : α) (k : Str) :
    assocFind (m ++ [(k', v)]) k =
      optFirst (assocFind m k) (if k' = k then some v else none) := by
  induction m with
  | nil => simp [assocFind, optFirst]
  | cons p rest ih =>
    obtain ⟨a, b⟩ := p
    by_cases h : a = k
    · simp [assocFind, h, optFirst]
    · simp [assocFind, h, ih]

theorem lookupPair_insertObs (m : ChineseMap) (G W T g w : Str) :
    lookupPair (insertObs m G W T) g w =
      optFirst (lookupPair m g w) (if G = g ∧ W = w then some T else none) := by
  induction m with
  | nil =>
    by_cases hg : G = g <;> by_cases hw : W = w <;>
      simp [insertObs, lookupPair, assocFind, optFirst, hg, hw]
  | cons p rest ih =>
    obtain ⟨a, em⟩ := p
    by_cases hg : a = g
    · subst hg
      by_cases ha : a = G
      · subst ha
        by_cases hhas : (assocFind em W).isSome = true
        · obtain ⟨x, hx⟩ := Option.isSome_iff_exists.mp hhas
          by_cases hw : W = w
          · subst hw
            simp [insertObs, lookupPair, assocFind, hhas, hx, optFirst]
          · simp [insertObs, lookupPair, assocFind, hhas, hw, optFirst_none]
        · simp [insertObs, lookupPair, assocFind, hhas, assocFind_append]
      · have hG : ¬ (G = a ∧ W = w) := fun hc => ha hc.1.symm
        simp [insertObs, lookupPair, assocFind, ha, hG, optFirst_none]
    · by_cases ha : a = G
      · subst ha
        have hG : ¬ (a = g ∧ W = w) := fun hc => hg hc.1
        simp [insertObs, lookupPair, assocFind, hg, hG, optFirst_none]
      · simpa [insertObs, lookupPair, assocFind, ha, hg] using ih

theorem lookupPair_foldl (ts : List (Str × Str × Str)) (m : ChineseMap) (g w : Str) :
    lookupPair (ts.foldl (fun m o => insertObs m o.1 o.2.1 o.2.2) m) g w =
      optFirst (lookupPair m g w)
        ((ts.find? (fun o => decide (o.1 = g ∧ o.2.1 = w))).map (fun o => o.2.2)) := by
  induction ts generalizing m with
  | nil => simp [optFirst_none]
  | cons o ts ih =>
    rw [List.foldl_cons, ih, lookupPair_insertObs, optFirst_assoc]
    by_cases h : o.1 = g ∧ o.2.1 = w
    · have hb : (decide (o.1 = g) && decide (o.2.1 = w)) = true := by
        simp [h.1, h.2]
      simp [List.find?_cons, hb, if_pos h, optFirst]
    · have hb : (decide (o.1 = g) && decide (o.2.1 = w)) = false := by
        by_cases h1 : o.1 = g
        · have h2 : ¬ o.2.1 = w := fun h2 => h ⟨h1, h2⟩
          simp [h2]
        · simp [h1]
      simp [List.find?_cons, hb, if_neg h, optFirst]

theorem buildChineseMap_eq_foldl (records : List (List Str)) :
    buildChineseMap records =
      (observations records).foldl (fun m o => insertObs m o.1 o.2.1 o.2.2) [] := by
  suffices haux : ∀ m : ChineseMap,
      records.foldl
        (fun m r =>
          (extractChineseWords (r.getD 3 [])).foldl
            (fun m' chWord => insertObs m' chWord (r.getD 0 []) (r.getD 3 [])) m) m
      = (observations records).foldl (fun m o => insertObs m o.1 o.2.1 o.2.2) m by
    exact haux []
  induction records with
  | nil => intro m; simp [observations]
  | cons r rs ih =>
    intro m
    have hobs : observations (r :: rs) = obsOfRecord r ++ observations rs := by
      simp [observations]
    have hinner : (extractChineseWords (r.getD 3 [])).foldl
        (fun m' chWord => insertObs m' chWord (r.getD 0 []) (r.getD 3 [])) m
      = (obsOfRecord r).foldl (fun m o => insertObs m o.1 o.2.1 o.2.2) m := by
      unfold obsOfRecord
      rw [List.foldl_map]
    rw [List.foldl_cons, ih, hobs, List.foldl_append, ← hinner]

/-- Claim C6: for every (gloss, word) pair, the translation stored in the
reverse index is exactly the translation of the first observation of that
pair in corpus scan order; later observations never overwrite it. -/
theorem spec_C6 : ∀ (records : List (List Str)) (g w : Str),
    lookupPair (buildChineseMap records) g w =
      ((observations records).find? (fun o => decide (o.1 = g ∧ o.2.1 = w))).map
        (fun o => o.2.2) := by
  intro records g w
  rw [buildChineseMap_eq_foldl, lookupPair_foldl]
  simp [lookupPair, assocFind, optFirst]

/-! ## Claim C10: every reverse-index key is a non-empty all-Chinese string -/

theorem extract_isAllChinese {s w : Str} (h : w ∈ extractChineseWords s) :
    isAllChinese w = true := by
  unfold extractChineseWords at h
  rw [extract_foldl] at h
  simp only [List.nil_append] at h
  have hp := List.of_mem_filter h
  exact (isAllChinese_iff w).mpr (by simpa using hp)

theorem lookupGloss_insertObs_isSome (m : ChineseMap) (G W T g : Str) :
    (assocFind (insertObs m G W T) g).isSome = true ↔
      (assocFind m g).isSome = true ∨ G = g := by
  induction m with
  | nil =>
    by_cases hg : G = g <;> simp [insertObs, assocFind, hg]
  | cons p rest ih =>
    obtain ⟨a, em⟩ := p
    by_cases hg : a = g
    · subst hg
      by_cases ha : a = G
      · subst ha
        simp [insertObs, assocFind]
      · simp [insertObs, assocFind, ha]
    · by_cases ha : a = G
      · subst ha
        simp [insertObs, assocFind, hg]
      · simpa [insertObs, assocFind, ha, hg] using ih

theorem lookupGloss_foldl_isSome (ts : List (Str × Str × Str)) (m : ChineseMap) (g : Str) :
    (assocFind (ts.foldl (fun m o => insertObs m o.1 o.2.1 o.2.2) m) g).isSome = true ↔
      (assocFind m g).isSome = true ∨ ∃ o ∈ ts, o.1 = g := by
  induction ts generalizing m with
  | nil => simp
  | cons o ts ih =>
    rw [List.foldl_cons, ih, lookupGloss_insertObs_isSome]
    constructor
    · rintro ((h | h) | h)
      · exact Or.inl h
      · exact Or.inr ⟨o, by simp, h⟩
      · obtain ⟨p, hp, h'⟩ := h
        exact Or.inr ⟨p, by simp [hp], h'⟩
    · rintro (h | ⟨p, hp, h'⟩)
      · exact Or.inl (Or.inl h)
      · rcases List.mem_cons.mp hp with rfl | hmem
        · exact Or.inl (Or.inr h')
        · exact Or.inr ⟨p, hmem, h'⟩

theorem buildMap_key_isAllChinese (records : List (List Str)) (g : Str)
    (h : (assocFind (buildChineseMap records) g).isSome = true) :
    isAllChinese g = true := by
  rw [buildChineseMap_eq_foldl, lookupGloss_foldl_isSome] at h
  rcases h with h | ⟨o, ho, hg⟩
  · simp [assocFind] at h
  · obtain ⟨r, _, hobs⟩ := List.mem_flatMap.mp ho
    obtain ⟨g', hg', he⟩ := List.mem_map.mp hobs
    have : o.1 = g' := by rw [← he]
    rw [← hg, this]
    exact extract_isAllChinese hg'

/-- Claim C10: every gloss key present in the reverse index is a non-empty
string whose runes are all Han ideographs, `·` or `—`; and the extractor
never emits an empty fragment. -/
theorem spec_C10 :
    (∀ (records : List (List Str)) (g : Str),
        (assocFind (buildChineseMap records) g).isSome = true →
        g ≠ [] ∧ ∀ c ∈ g, isHan c = true ∨ c = '·' ∨ c = '—') ∧
    (∀ s w : Str, w ∈ extractChineseWords s → w ≠ []) := by
  constructor
  · intro records g h
    exact (isAllChinese_iff g).mp (buildMap_key_isAllChinese records g h)
  · intro s w h
    exact ((isAllChinese_iff w).mp (extract_isAllChinese h)).1

/-- Witness for C10 at a concrete corpus and translation string. -/
theorem spec_C10_witness :
    ("好".toList ≠ [] ∧ ∀ c ∈ "好".toList, isHan c = true ∨ c = '·' ∨ c = '—') ∧
      "好".toList ≠ [] :=
  ⟨spec_C10.1 demoRecordsHan ("好".toList) (by decide),
   spec_C10.2 ("好".toList) ("好".toList) (by decide)⟩

/-! ## Claim C7: the recency cache add operation -/

theorem eraseFirst_of_not_mem {w : String} :
    ∀ {h : List String}, w ∉ h → eraseFirst w h = h := by
  intro h
  induction h with
  | nil => intro _; rfl
  | cons x xs ih =>
    intro hw
    simp only [List.mem_cons, not_or] at hw
    simp [eraseFirst, Ne.symm hw.1, ih hw.2]

theorem mem_of_mem_eraseFirst {w x : String} :
    ∀ {h : List String}, x ∈ eraseFirst w h → x ∈ h := by
  intro h
  induction h with
  | nil => intro hx; exact absurd hx (List.not_mem_nil x)
  | cons y ys ih =>
    intro hx
    rw [eraseFirst] at hx
    by_cases hy : y = w
    · rw [if_pos hy] at hx
      exact List.mem_cons_of_mem _ hx
    · rw [if_neg hy] at hx
      rcases List.mem_cons.mp hx with rfl | hx'
      · exact List.mem_cons_self _ _
      · exact List.mem_cons_of_mem _ (ih hx')

theorem eraseFirst_nodup {w : String} :
    ∀ {h : List String}, h.Nodup → (eraseFirst w h).Nodup := by
  intro h
  induction h with
  | nil => intro _; exact List.nodup_nil
  | cons y ys ih =>
    intro hn
    obtain ⟨hy, hys⟩ := List.nodup_cons.mp hn
    rw [eraseFirst]
    by_cases hyw : y = w
    · rw [if_pos hyw]; exact hys
    · rw [if_neg hyw]
      exact List.nodup_cons.mpr ⟨fun hm => hy (mem_of_mem_eraseFirst hm), ih hys⟩

theorem not_mem_eraseFirst {w : String} :
    ∀ {h : List String}, h.Nodup → w ∉ eraseFirst w h := by
  intro h
  induction h with
  | nil => intro _ hx; exact absurd hx (List.not_mem_nil w)
  | cons y ys ih =>
    intro hn hx
    obtain ⟨hy, hys⟩ := List.nodup_cons.mp hn
    rw [eraseFirst] at hx
    by_cases hyw : y = w
    · rw [if_pos hyw] at hx
      exact hy (hyw ▸ hx)
    · rw [if_neg hyw] at hx
      rcases List.mem_cons.mp hx with h' | h'
      · exact hyw h'.symm
      · exact ih hys h'

theorem eraseFirst_length_of_mem {w : String} :
    ∀ {h : List String}, w ∈ h → (eraseFirst w h).length + 1 = h.length := by
  intro h
  induction h with
  | nil => intro hm; exact absurd hm (List.not_mem_nil w)
  | cons y ys ih =>
    intro hm
    rw [eraseFirst]
    by_cases hyw : y = w
    · rw [if_pos hyw]; rfl
    · rw [if_neg hyw]
      have hm' : w ∈ ys := by
        rcases List.mem_cons.mp hm with h' | h'
        · exact absurd h'.symm hyw
        · exact h'
      simp only [List.length_cons]
      rw [← ih hm']

/-- Claim C7: on a duplicate-free cache of length at most 20, `addToHistory`
keeps it duplicate-free with length at most 20 and the new key at the front;
re-adding a present key leaves the length unchanged, and adding a 21st
distinct key keeps length 20 and drops the last (least recently added) key. -/
theorem spec_C7 : ∀ (h : List String) (w : String), h.Nodup → h.length ≤ maxHistorySize →
    (addToHistory h w).Nodup ∧
    (addToHistory h w).length ≤ maxHistorySize ∧
    (addToHistory h w).head? = some w ∧
    (w ∈ h → (addToHistory h w).length = h.length) ∧
    (w ∉ h → h.length = maxHistorySize →
      addToHistory h w = w :: h.take (maxHistorySize - 1)) := by
  intro h w hn hlen
  unfold addToHistory
  by_cases hm : w ∈ h
  · have hle := eraseFirst_length_of_mem hm
    have hlt : ¬ maxHistorySize < (w :: eraseFirst w h).length := by
      simp only [List.length_cons]
      omega
    rw [if_neg hlt]
    refine ⟨List.nodup_cons.mpr ⟨not_mem_eraseFirst hn, eraseFirst_nodup hn⟩, ?_, rfl,
      ?_, ?_⟩
    · simp only [List.length_cons]; omega
    · intro _; simp only [List.length_cons]; omega
    · intro hnm; exact absurd hm hnm
  · rw [eraseFirst_of_not_mem hm]
    by_cases hfull : maxHistorySize < (w :: h).length
    · rw [if_pos hfull]
      refine ⟨?_, ?_, ?_, ?_, ?_⟩
      · exact List.Nodup.sublist (List.take_sublist _ _) (List.nodup_cons.mpr ⟨hm, hn⟩)
      · simp only [List.length_take]; omega
      · rw [show maxHistorySize = 19 + 1 from rfl, List.take_succ_cons]
        rfl
      · intro hmem; exact absurd hmem hm
      · intro _ _
        rw [show maxHistorySize = 19 + 1 from rfl, List.take_succ_cons]
    · rw [if_neg hfull]
      simp only [List.length_cons] at hfull
      refine ⟨List.nodup_cons.mpr ⟨hm, hn⟩, ?_, rfl, ?_, ?_⟩
      · simp only [List.length_cons]; omega
      · intro hmem; exact absurd hmem hm
      · intro _ h20
        exfalso
        apply hfull
        rw [h20]
        exact Nat.lt_succ_self _

/-- Witness for C7 at a concrete cache state. -/
theorem spec_C7_witness :
    (addToHistory ["a", "b"] "c").Nodup ∧
    (addToHistory ["a", "b"] "c").length ≤ maxHistorySize ∧
    (addToHistory ["a", "b"] "c").head? = some "c" ∧
    ("c" ∈ ["a", "b"] → (addToHistory ["a", "b"] "c").length = (["a", "b"] : List String).length) ∧
    ("c" ∉ ["a", "b"] → (["a", "b"] : List String).length = maxHistorySize →
      addToHistory ["a", "b"] "c" = "c" :: (["a", "b"] : List String).take (maxHistorySize - 1)) :=
  spec_C7 ["a", "b"] "c" (by decide) (by decide)

/-! ## Claim C8: ingestion of raw rows -/

theorem englishIngest_aux (rows : List (Option (List Str))) (acc : List (List Str)) :
    rows.foldl
      (fun acc r =>
        match r with
        | none => acc
        | some rec => if 13 ≤ rec.length then acc ++ [rec] else acc) acc
    = acc ++ rows.filterMap
        (fun r =>
          match r with
          | none => none
          | some rec => if 13 ≤ rec.length then some rec else none) := by
  induction rows generalizing acc with
  | nil => simp
  | cons r rs ih =>
    cases r with
    | none => simpa using ih acc
    | some rec =>
      by_cases hl : 13 ≤ rec.length
      · simp only [List.foldl_cons, List.filterMap_cons, if_pos hl]
        rw [ih]
        simp
      · simp only [List.foldl_cons, List.filterMap_cons, if_neg hl]
        exact ih acc

theorem chineseIngest_aux (rows : List (Option (List Str))) (acc : List (List Str)) :
    rows.foldl
      (fun acc r =>
        match r with
        | none => acc
        | some rec =>
          if 13 ≤ rec.length ∧ rec.getD 3 [] ≠ [] then acc ++ [rec] else acc) acc
    = acc ++ rows.filterMap
        (fun r =>
          match r with
          | none => none
          | some rec =>
            if 13 ≤ rec.length ∧ rec.getD 3 [] ≠ [] then some rec else none) := by
  induction rows generalizing acc with
  | nil => simp
  | cons r rs ih =>
    cases r with
    | none => simpa using ih acc
    | some rec =>
      by_cases hl : 13 ≤ rec.length ∧ rec.getD 3 [] ≠ []
      · simp only [List.foldl_cons, List.filterMap_cons, if_pos hl]
        rw [ih]
        simp
      · simp only [List.foldl_cons, List.filterMap_cons, if_neg hl]
        exact ih acc

theorem foldl_append_toForwardEntry (l : List (List Str))
    (acc : List (Str × Str × Str × Str × Str)) :
    l.foldl (fun acc rec => acc ++ [toForwardEntry rec]) acc
      = acc ++ l.map toForwardEntry := by
  induction l generalizing acc with
  | nil => simp
  | cons x xs ih =>
    rw [List.foldl_cons, ih]
    simp

/-- Claim C8, amended: the English build materializes exactly the parsed rows
with at least 13 fields and inserts each with fields 0, 1, 2, 3 and 8; the
Chinese build additionally drops rows whose translation field is empty; rows
with fewer than 13 fields or row-level parse failures are skipped without
aborting (the fold is total and later rows are unaffected). (As frozen the
claim is false for the Chinese build, see the counterexample.) -/
theorem spec_C8 : ∀ rows : List (Option (List Str)),
    englishIngest rows = rows.filterMap
      (fun r =>
        match r with
        | none => none
        | some rec => if 13 ≤ rec.length then some rec else none) ∧
    chineseIngest rows = rows.filterMap
      (fun r =>
        match r with
        | none => none
        | some rec =>
          if 13 ≤ rec.length ∧ rec.getD 3 [] ≠ [] then some rec else none) ∧
    englishInserts rows = (englishIngest rows).map toForwardEntry := by
  intro rows
  refine ⟨?_, ?_, ?_⟩
  · unfold englishIngest
    rw [englishIngest_aux]
    simp
  · unfold chineseIngest
    rw [chineseIngest_aux]
    simp
  · unfold englishInserts
    rw [foldl_append_toForwardEntry]
    simp

/-- Claim C8 as frozen is false: a 13-field row with an empty translation
field is accepted by the English ingestion but excluded from the Chinese
build's materialized corpus. -/
theorem spec_C8_counterexample :
    (mkRow "x" "" "7").length = 13 ∧
    englishIngest [some (mkRow "x" "" "7")] = [mkRow "x" "" "7"] ∧
    chineseIngest [some (mkRow "x" "" "7")] = [] := by
  decide

/-! ## Claim C3: serialized gloss entries are ordered by rank -/

theorem mem_orderedInsertBnc (x y : EngInfo) (l : List EngInfo) :
    y ∈ orderedInsertBnc x l ↔ y = x ∨ y ∈ l := by
  induction l with
  | nil => simp [orderedInsertBnc]
  | cons z zs ih =>
    by_cases h : x.bnc ≤ z.bnc
    · simp [orderedInsertBnc, h]
    · simp [orderedInsertBnc, h, ih]
      tauto

theorem pairwise_orderedInsertBnc (x : EngInfo) (l : List EngInfo)
    (hl : l.Pairwise (fun a b => a.bnc ≤ b.bnc)) :
    (orderedInsertBnc x l).Pairwise (fun a b => a.bnc ≤ b.bnc) := by
  induction l with
  | nil => simp [orderedInsertBnc]
  | cons z zs ih =>
    obtain ⟨hz, hzs⟩ := List.pairwise_cons.mp hl
    by_cases h : x.bnc ≤ z.bnc
    · rw [orderedInsertBnc, if_pos h]
      refine List.pairwise_cons.mpr ⟨?_, hl⟩
      intro b hb
      rcases List.mem_cons.mp hb with rfl | hb'
      · exact h
      · exact le_trans h (hz b hb')
    · rw [orderedInsertBnc, if_neg h]
      refine List.pairwise_cons.mpr ⟨?_, ih hzs⟩
      intro b hb
      rcases (mem_orderedInsertBnc x b zs).mp hb with rfl | hb'
      · exact le_of_not_le h
      · exact hz b hb'

theorem perm_orderedInsertBnc (x : EngInfo) (l : List EngInfo) :
    List.Perm (orderedInsertBnc x l) (x :: l) := by
  induction l with
  | nil => simp [orderedInsertBnc]
  | cons z zs ih =>
    by_cases h : x.bnc ≤ z.bnc
    · rw [orderedInsertBnc, if_pos h]
    · rw [orderedInsertBnc, if_neg h]
      exact (ih.cons z).trans (List.Perm.swap x z zs)

theorem pairwise_sortByBnc (l : List EngInfo) :
    (sortByBnc l).Pairwise (fun a b => a.bnc ≤ b.bnc) := by
  induction l with
  | nil => simp [sortByBnc]
  | cons x xs ih => exact pairwise_orderedInsertBnc x _ ih

theorem perm_sortByBnc (l : List EngInfo) : List.Perm (sortByBnc l) l := by
  induction l with
  | nil => simp [sortByBnc]
  | cons x xs ih => exact (perm_orderedInsertBnc x _).trans (ih.cons x)

/-- Claim C3, amended: for every gloss the ranks of the serialized segments
are non-decreasing, and when the candidate words carry pairwise distinct
ranks the order is strictly ascending. (As frozen — strict ascent whenever
at least two distinct rank values occur — the claim is false in the
presence of a tie, see the counterexample.) -/
theorem spec_C3 : ∀ (records : List (List Str)) (g : Str),
    (glossRanks records g).Pairwise (· ≤ ·) ∧
    (((glossEngList records g).map EngInfo.bnc).Nodup →
      (glossRanks records g).Pairwise (· < ·)) := by
  intro records g
  have hsorted : (glossRanks records g).Pairwise (· ≤ ·) := by
    unfold glossRanks glossSorted
    exact List.Pairwise.map _ (fun a b h => h) (pairwise_sortByBnc _)
  refine ⟨hsorted, ?_⟩
  intro hnd
  have hperm : List.Perm (glossRanks records g) ((glossEngList records g).map EngInfo.bnc) := by
    unfold glossRanks glossSorted
    exact (perm_sortByBnc _).map EngInfo.bnc
  have hnd' : (glossRanks records g).Nodup := hperm.nodup_iff.mpr hnd
  exact (List.Pairwise.and hsorted hnd').imp (fun hab => lt_of_le_of_ne hab.1 hab.2)

/-- Witness for C3 at a concrete two-record corpus with distinct ranks. -/
theorem spec_C3_witness :
    (glossRanks demoRecordsOrd ("好".toList)).Pairwise (· ≤ ·) ∧
      (glossRanks demoRecordsOrd ("好".toList)).Pairwise (· < ·) :=
  ⟨(spec_C3 demoRecordsOrd ("好".toList)).1,
   (spec_C3 demoRecordsOrd ("好".toList)).2 (by decide)⟩

/-- Claim C3 as frozen is false: with candidate ranks {5, 5, 7} the gloss has
two distinct rank values, yet the serialized rank sequence [5, 5, 7] is not
strictly ascending. -/
theorem spec_C3_counterexample :
    glossRanks demoRecordsTie ("好".toList) = [5, 5, 7] ∧
      2 ≤ ((glossRanks demoRecordsTie ("好".toList)).dedup).length ∧
      ¬ (glossRanks demoRecordsTie ("好".toList)).Pairwise (· < ·) := by
  decide

/-! ## Claim C1: the tiered search engine -/

theorem addRows_shape (rows : List Str) :
    ∀ acc, ∃ t, addRows rows acc = acc ++ t ∧ ∀ x ∈ t, x ∈ rows := by
  induction rows with
  | nil => exact fun acc => ⟨[], by simp [addRows], by simp⟩
  | cons w rows ih =>
    intro acc
    have hstep : addRows (w :: rows) acc
        = addRows rows (if w ∈ acc then acc else acc ++ [w]) := rfl
    rw [hstep]
    by_cases h : w ∈ acc
    · rw [if_pos h]
      obtain ⟨t, ht, hmem⟩ := ih acc
      exact ⟨t, ht, fun x hx => List.mem_cons_of_mem _ (hmem x hx)⟩
    · rw [if_neg h]
      obtain ⟨t, ht, hmem⟩ := ih (acc ++ [w])
      refine ⟨w :: t, ?_, ?_⟩
      · rw [ht, List.append_assoc]
        rfl
      · intro x hx
        rcases List.mem_cons.mp hx with rfl | hx'
        · exact List.mem_cons_self _ _
        · exact List.mem_cons_of_mem _ (hmem x hx')

theorem addRows_nodup (rows : List Str) :
    ∀ acc, acc.Nodup → (addRows rows acc).Nodup := by
  induction rows with
  | nil => intro acc h; simpa [addRows] using h
  | cons w rows ih =>
    intro acc h
    have hstep : addRows (w :: rows) acc
        = addRows rows (if w ∈ acc then acc else acc ++ [w]) := rfl
    rw [hstep]
    by_cases hw : w ∈ acc
    · rw [if_pos hw]
      exact ih acc h
    · rw [if_neg hw]
      refine ih _ ?_
      simp [List.nodup_append, h, hw]

theorem addRows_length (rows : List Str) :
    ∀ acc, (addRows rows acc).length ≤ acc.length + rows.length := by
  induction rows with
  | nil => intro acc; simp [addRows]
  | cons w rows ih =>
    intro acc
    have hstep : addRows (w :: rows) acc
        = addRows rows (if w ∈ acc then acc else acc ++ [w]) := rfl
    rw [hstep]
    by_cases hw : w ∈ acc
    · rw [if_pos hw]
      have := ih acc
      simp only [List.length_cons]
      omega
    · rw [if_neg hw]
      have := ih (acc ++ [w])
      simp only [List.length_append, List.length_cons, List.length_nil,
        List.length_singleton] at this ⊢
      omega

theorem mem_sqlDistinct {x : Str} {l : List Str} (h : x ∈ sqlDistinct l) : x ∈ l := by
  obtain ⟨t, ht, hmem⟩ := addRows_shape l []
  have heq : sqlDistinct l = addRows l [] := rfl
  rw [heq, ht] at h
  exact hmem x (by simpa using h)

theorem threeTiers_ok (keyword : Str) (l1 : List Str) (l2 l3 : Nat → List Str)
    (h1 : ∀ x ∈ l1, x = keyword)
    (h2 : ∀ n, ∀ x ∈ l2 n, strStartsWith x keyword = true ∧ x ≠ keyword)
    (h3 : ∀ n, ∀ x ∈ l3 n, strContainsSub x keyword = true ∧ strStartsWith x keyword = false)
    (n1 : l1.length ≤ searchLimit)
    (n2 : ∀ n, (l2 n).length ≤ n)
    (n3 : ∀ n, (l3 n).length ≤ n) :
    (threeTiers l1 l2 l3).Nodup ∧ (threeTiers l1 l2 l3).length ≤ 100 ∧
      TierOrdered keyword (threeTiers l1 l2 l3) := by
  unfold threeTiers
  obtain ⟨t1, ht1, hm1⟩ := addRows_shape l1 []
  have r1nodup : (addRows l1 []).Nodup := addRows_nodup l1 [] List.nodup_nil
  have r1len : (addRows l1 []).length ≤ searchLimit := by
    have := addRows_length l1 []
    simp only [List.length_nil, Nat.zero_add] at this
    omega
  by_cases c1 : searchLimit ≤ (addRows l1 []).length
  · rw [if_pos c1]
    refine ⟨r1nodup, by simpa [searchLimit] using r1len, t1, [], [], ?_, ?_, ?_, ?_⟩
    · rw [ht1]
      simp
    · exact fun x hx => h1 x (hm1 x hx)
    · intro x hx
      exact absurd hx (List.not_mem_nil x)
    · intro x hx
      exact absurd hx (List.not_mem_nil x)
  · rw [if_neg c1]
    obtain ⟨t2, ht2, hm2⟩ := addRows_shape (l2 (searchLimit - (addRows l1 []).length)) (addRows l1 [])
    have r2nodup := addRows_nodup (l2 (searchLimit - (addRows l1 []).length)) _ r1nodup
    have r2len : (addRows (l2 (searchLimit - (addRows l1 []).length)) (addRows l1 [])).length ≤ searchLimit := by
      have ha := addRows_length (l2 (searchLimit - (addRows l1 []).length)) (addRows l1 [])
      have hb := n2 (searchLimit - (addRows l1 []).length)
      omega
    by_cases c2 : searchLimit ≤ (addRows (l2 (searchLimit - (addRows l1 []).length)) (addRows l1 [])).length
    · rw [if_pos c2]
      refine ⟨r2nodup, by simpa [searchLimit] using r2len, t1, t2, [], ?_, ?_, ?_, ?_⟩
      · rw [ht2, ht1]
        simp
      · exact fun x hx => h1 x (hm1 x hx)
      · exact fun x hx => h2 _ x (hm2 x hx)
      · intro x hx
        exact absurd hx (List.not_mem_nil x)
    · rw [if_neg c2]
      obtain ⟨t3, ht3, hm3⟩ := addRows_shape
        (l3 (searchLimit - (addRows (l2 (searchLimit - (addRows l1 []).length)) (addRows l1 [])).length))
        (addRows (l2 (searchLimit - (addRows l1 []).length)) (addRows l1 []))
      have r3nodup := addRows_nodup
        (l3 (searchLimit - (addRows (l2 (searchLimit - (addRows l1 []).length)) (addRows l1 [])).length))
        _ r2nodup
      have r3len : (addRows
          (l3 (searchLimit - (addRows (l2 (searchLimit - (addRows l1 []).length)) (addRows l1 [])).length))
          (addRows (l2 (searchLimit - (addRows l1 []).length)) (addRows l1 []))).length ≤ searchLimit := by
        have ha := addRows_length
          (l3 (searchLimit - (addRows (l2 (searchLimit - (addRows l1 []).length)) (addRows l1 [])).length))
          (addRows (l2 (searchLimit - (addRows l1 []).length)) (addRows l1 []))
        have hb := n3 (searchLimit - (addRows (l2 (searchLimit - (addRows l1 []).length)) (addRows l1 [])).length)
        omega
      refine ⟨r3nodup, by simpa [searchLimit] using r3len, t1, t2, t3, ?_, ?_, ?_, ?_⟩
      · rw [ht3, ht2, ht1]
        simp
      · exact fun x hx => h1 x (hm1 x hx)
      · exact fun x hx => h2 _ x (hm2 x hx)
      · exact fun x hx => h3 _ x (hm3 x hx)

/-- Claim C1: against either index, every query's result set has no
duplicate key, has at most 100 entries, and decomposes into the exact
matches, then the leading-only matches, then the containment-only matches. -/
theorem spec_C1 : ∀ (db : List Str) (keyword : Str),
    ((searchEnglish db keyword).Nodup ∧ (searchEnglish db keyword).length ≤ 100 ∧
      TierOrdered keyword (searchEnglish db keyword)) ∧
    ((searchChinese db keyword).Nodup ∧ (searchChinese db keyword).length ≤ 100 ∧
      TierOrdered keyword (searchChinese db keyword)) := by
  intro db keyword
  constructor
  · have heq : searchEnglish db keyword = threeTiers
        ((db.filter (fun w => decide (w = keyword))).take searchLimit)
        (fun n => (db.filter (fun w => strStartsWith w keyword && !(decide (w = keyword)))).take n)
        (fun n => (db.filter (fun w => strContainsSub w keyword && !(strStartsWith w keyword))).take n) := rfl
    rw [heq]
    apply threeTiers_ok
    · intro x hx
      have hx' := List.mem_filter.mp (List.take_subset _ _ hx)
      simpa using hx'.2
    · intro n x hx
      have hx' := List.mem_filter.mp (List.take_subset _ _ hx)
      have hb := hx'.2
      simp only [Bool.and_eq_true, Bool.not_eq_true', decide_eq_false_iff_not] at hb
      exact ⟨hb.1, hb.2⟩
    · intro n x hx
      have hx' := List.mem_filter.mp (List.take_subset _ _ hx)
      have hb := hx'.2
      simp only [Bool.and_eq_true, Bool.not_eq_true'] at hb
      exact ⟨hb.1, hb.2⟩
    · rw [List.length_take]
      omega
    · intro n
      rw [List.length_take]
      omega
    · intro n
      rw [List.length_take]
      omega
  · have heq : searchChinese db keyword = threeTiers
        ((sqlDistinct (db.filter (fun w => decide (w = keyword)))).take searchLimit)
        (fun n => (sqlDistinct (db.filter (fun w => strStartsWith w keyword && !(decide (w = keyword))))).take n)
        (fun n => (sqlDistinct (db.filter (fun w => strContainsSub w keyword && !(strStartsWith w keyword)))).take n) := rfl
    rw [heq]
    apply threeTiers_ok
    · intro x hx
      have hx' := List.mem_filter.mp (mem_sqlDistinct (List.take_subset _ _ hx))
      simpa using hx'.2
    · intro n x hx
      have hx' := List.mem_filter.mp (mem_sqlDistinct (List.take_subset _ _ hx))
      have hb := hx'.2
      simp only [Bool.and_eq_true, Bool.not_eq_true', decide_eq_false_iff_not] at hb
      exact ⟨hb.1, hb.2⟩
    · intro n x hx
      have hx' := List.mem_filter.mp (mem_sqlDistinct (List.take_subset _ _ hx))
      have hb := hx'.2
      simp only [Bool.and_eq_true, Bool.not_eq_true'] at hb
      exact ⟨hb.1, hb.2⟩
    · rw [List.length_take]
      omega
    · intro n
      rw [List.length_take]
      omega
    · intro n
      rw [List.length_take]
      omega

end Dict
